import Mathlib

/-!
Verification of the text-extraction cascade of `bot.py`.

Python strings are modelled as lists of characters (`Str`); the external
libraries (pdfplumber, pdf2image, pytesseract, PIL) are modelled by recording,
per document, the outcome of each library call the extractor makes: `none`
models a raised exception, `some v` a returned value.  Whitespace is modelled
by the six ASCII whitespace characters Python's `str.split()` / `str.strip()`
treat as separators.
-/

namespace DispatchBot

/-- A Python string, as a list of characters. -/
abbrev Str := List Char

/-- The ASCII whitespace characters of Python's `str.split()` / `str.strip()`. -/
def pyWs (c : Char) : Bool :=
  c = ' ' || c = '\t' || c = '\n' || c = '\r' || c = '\x0b' || c = '\x0c'

/-- Python `s.strip()`: drop leading and trailing whitespace. -/
def pyStrip (l : Str) : Str :=
  ((l.dropWhile pyWs).reverse.dropWhile pyWs).reverse

/-- Helper for Python `s.split()` (no separator): `acc` is the current token,
reversed; tokens are emitted as maximal runs of non-whitespace characters. -/
def pySplitAux : Str → Str → List Str
  | [], acc => if acc = [] then [] else [acc.reverse]
  | c :: cs, acc =>
    if pyWs c then
      if acc = [] then pySplitAux cs [] else acc.reverse :: pySplitAux cs []
    else pySplitAux cs (c :: acc)

/-- Python `s.split()` with no separator: maximal runs of non-whitespace. -/
def pySplit (l : Str) : List Str := pySplitAux l []

/-- Helper for Python `s.split('\n')`. -/
def splitNlAux : Str → Str → List Str
  | [], acc => [acc.reverse]
  | c :: cs, acc =>
    if c = '\n' then acc.reverse :: splitNlAux cs []
    else splitNlAux cs (c :: acc)

/-- Python `s.split('\n')`: split on every newline, keeping empty pieces. -/
def splitNl (l : Str) : List Str := splitNlAux l []

/-- Python `sep.join(pieces)` for a one-character separator. -/
def joinSep (sep : Char) : List Str → Str
  | [] => []
  | [l] => l
  | l :: l2 :: ls => l ++ sep :: joinSep sep (l2 :: ls)

/-- Python `' '.join(tokens)`. -/
def joinSpace (ts : List Str) : Str := joinSep ' ' ts

/-- Python `'\n'.join(lines)`. -/
def joinNl (ls : List Str) : Str := joinSep '\n' ls

/-- The list `cleaned_lines` built by `clean_extracted_text` (bot.py lines
140-146): each line of the input is whitespace-collapsed by
`' '.join(line.split())` and kept only when `line.strip()` is still truthy. -/
def cleaned_lines (t : Str) : List Str :=
  (splitNl t).filterMap fun line =>
    let line2 := joinSpace (pySplit line)
    if pyStrip line2 ≠ [] then some line2 else none

/-- `clean_extracted_text` (bot.py lines 134-148).  The argument is optional:
`none` models a Python `None` argument, which like the empty string is falsy
and returns `""` at line 136-137; otherwise the cleaned lines are rejoined
with single newlines. -/
def clean_extracted_text : Option Str → Str
  | none => []
  | some t => if t = [] then [] else joinNl (cleaned_lines t)

/-- The page marker written by the pdfplumber strategy (bot.py line 159). -/
def pageMarker (n : Nat) : Str :=
  "--- Page ".data ++ Nat.toDigits 10 n ++ " ---".data

/-- The page marker written by the OCR strategy (bot.py line 187). -/
def ocrMarker (n : Nat) : Str :=
  "--- Page ".data ++ Nat.toDigits 10 n ++ " (OCR) ---".data

/-- A PDF document, abstracted to the outcomes of the external library calls
the extractor makes on it.  `none` models a raised exception; `some v` a
returned value. -/
structure PDFDoc where
  /-- `pdfplumber.open(file_path)` raises (missing, corrupt or encrypted file). -/
  openFails : Bool
  /-- Per page, the outcome of `page.extract_text()`: `none` = the call raises,
  `some none` = it returns Python `None`, `some (some s)` = it returns `s`. -/
  pages : List (Option (Option Str))
  /-- `convert_from_path` raises while rasterising the document. -/
  ocrConvertFails : Bool
  /-- Per page, the outcome of grayscale conversion plus
  `pytesseract.image_to_string`: `none` = a raise, `some s` = OCR text `s`. -/
  ocrPages : List (Option Str)

/-- `validate_pdf` (bot.py lines 122-132): open the file, and when it has at
least one page, try to extract the first page's text; any exception yields
`False`. -/
def validate_pdf (d : PDFDoc) : Bool :=
  if d.openFails then false
  else
    match d.pages with
    | [] => true
    | p :: _ => p.isSome

/-- The page loop of `extract_text_with_pdfplumber` (bot.py lines 156-160):
pages whose `extract_text()` is falsy (`None` or `""`) are skipped, a raise
aborts the whole walk (caught at line 165), and each kept page contributes
`"\n--- Page N ---\n" + page_text + "\n"`. -/
def plumberLoop : Nat → List (Option (Option Str)) → Option Str
  | _, [] => some []
  | _, none :: _ => none
  | i, some none :: rest => plumberLoop (i + 1) rest
  | i, some (some s) :: rest =>
    if s = [] then plumberLoop (i + 1) rest
    else (plumberLoop (i + 1) rest).map
      (fun t => '\n' :: pageMarker (i + 1) ++ '\n' :: s ++ '\n' :: t)

/-- `extract_text_with_pdfplumber` (bot.py lines 150-167): walk the pages,
clean the concatenation, and return it only when it still has content
(`return text if text.strip() else None`); any exception gives `None`. -/
def extract_text_with_pdfplumber (d : PDFDoc) : Option Str :=
  if d.openFails then none
  else
    match plumberLoop 0 d.pages with
    | none => none
    | some raw =>
      let t := clean_extracted_text (some raw)
      if pyStrip t ≠ [] then some t else none

/-- The page loop of `extract_text_with_ocr` (bot.py lines 179-188): pages
whose OCR text strips to nothing are skipped, a raise aborts the whole
attempt (caught at line 194), and each kept page contributes
`"\n--- Page N (OCR) ---\n" + page_text + "\n"`. -/
def ocrLoop : Nat → List (Option Str) → Option Str
  | _, [] => some []
  | _, none :: _ => none
  | i, some s :: rest =>
    if pyStrip s ≠ [] then
      (ocrLoop (i + 1) rest).map
        (fun t => '\n' :: ocrMarker (i + 1) ++ '\n' :: s ++ '\n' :: t)
    else ocrLoop (i + 1) rest

/-- `extract_text_with_ocr` (bot.py lines 169-196): rasterise at most the
first 5 pages (`convert_from_path(..., first_page=1, last_page=5)`, line 175),
OCR each, clean the concatenation, and return it only when it still has
content; any exception gives `None`. -/
def extract_text_with_ocr (d : PDFDoc) : Option Str :=
  if d.ocrConvertFails then none
  else
    match ocrLoop 0 (d.ocrPages.take 5) with
    | none => none
    | some raw =>
      let t := clean_extracted_text (some raw)
      if pyStrip t ≠ [] then some t else none

/-- The inline acceptance test `text and len(text.strip()) > thr` of
`extract_text_from_pdf` (bot.py lines 210 and 218): a `None` or empty result
is falsy and rejected; otherwise the stripped length must exceed `thr`. -/
def acceptGate (t : Option Str) (thr : Nat) : Bool :=
  match t with
  | none => false
  | some s => !s.isEmpty && decide (thr < (pyStrip s).length)

/-- The dictionary `{"text": ..., "method": ...}` a successful extraction
returns (bot.py lines 212 and 220).  These are its only keys: the code
attaches no success flag and no error reason. -/
structure ExtractionOk where
  text : Str
  method : Str
deriving DecidableEq

/-- `extract_text_from_pdf` (bot.py lines 198-223): validate, try pdfplumber
against the 100-character gate, then OCR against the 50-character gate;
`none` models the Python `None` returned on validation failure (line 204) and
on total exhaustion (line 223). -/
def extract_text_from_pdf (d : PDFDoc) : Option ExtractionOk :=
  if validate_pdf d then
    let t1 := extract_text_with_pdfplumber d
    if acceptGate t1 100 then some ⟨t1.getD [], "pdfplumber".data⟩
    else
      let t2 := extract_text_with_ocr d
      if acceptGate t2 50 then some ⟨t2.getD [], "ocr".data⟩
      else none
  else none

/-- The strategies `extract_text_from_pdf` invokes, in invocation order,
mirroring its control flow (bot.py lines 202-223): nothing after a failed
validation, pdfplumber alone when its gate accepts, otherwise pdfplumber
followed by OCR. -/
def attemptedMethods (d : PDFDoc) : List Str :=
  if validate_pdf d then
    if acceptGate (extract_text_with_pdfplumber d) 100 then ["pdfplumber".data]
    else ["pdfplumber".data, "ocr".data]
  else []

/-- A token list is good when every token is nonempty and whitespace-free;
this is what `pySplit` produces. -/
def goodToken (t : Str) : Prop := t ≠ [] ∧ ∀ c ∈ t, pyWs c = false

/-- No two adjacent characters are both whitespace. -/
def noWsRun : Str → Bool
  | [] => true
  | [_] => true
  | a :: b :: rest => !(pyWs a && pyWs b) && noWsRun (b :: rest)

/-- The first character, when there is one, is not whitespace. -/
def headOk (l : Str) : Bool :=
  match l.head? with
  | none => true
  | some c => !pyWs c

/-- The last character, when there is one, is not whitespace. -/
def lastOk (l : Str) : Bool :=
  match l.getLast? with
  | none => true
  | some c => !pyWs c

/-- Every whitespace character is a plain space. -/
def spacesOnly (l : Str) : Bool := l.all fun c => !pyWs c || c = ' '

/-- A line as `clean_extracted_text` emits it: nonempty, no leading or
trailing whitespace, no two adjacent whitespace characters, and every
whitespace character a single plain space. -/
def normalizedLine (l : Str) : Bool :=
  !l.isEmpty && headOk l && lastOk l && noWsRun l && spacesOnly l

/-- A document whose single page carries a 101-character embedded text
layer, so the pdfplumber strategy succeeds. -/
def docA : PDFDoc := ⟨false, [some (some (List.replicate 101 'a'))], false, []⟩

/-- What `extract_text_from_pdf` returns on `docA`. -/
def resA : ExtractionOk :=
  ⟨"--- Page 1 ---".data ++ '\n' :: List.replicate 101 'a', "pdfplumber".data⟩

/-- A document on which every strategy fails or stays below its threshold:
the embedded-text layer returns `None` and OCR reads only 9 characters. -/
def docFail : PDFDoc := ⟨false, [some none], false, [some "too short".data]⟩

/-- A 12-page scanned document: every page OCRs to a 25-character line. -/
def doc12 : PDFDoc :=
  ⟨false, [], false, List.replicate 12 (some "Scanned page content here".data)⟩

/-- A document whose first page raises during OCR while its second page
would OCR to 60 characters. -/
def docPageFail : PDFDoc := ⟨false, [], false, [none, some (List.replicate 60 'y')]⟩

/-- A line that is a page-boundary marker (it starts with `--- Page `). -/
def markerLine (l : Str) : Bool := l.take 9 = "--- Page ".data

/-- How many page-boundary marker lines a text contains. -/
def countMarkers (t : Str) : Nat := ((splitNl t).filter markerLine).length

/-- An RGB pixel. -/
abbrev RGB := Nat × Nat × Nat

/-- A colour raster image, as rows of RGB pixels. -/
abbrev RGBImage := List (List RGB)
/-- A single-band grayscale image, as rows of 0-255 values. -/
abbrev GrayImage := List (List Nat)

/-- The luminosity formula of PIL `Image.convert('L')`:
`L = (299 R + 587 G + 114 B) / 1000` with integer truncation. -/
def lum (p : RGB) : Nat := (299 * p.1 + 587 * p.2.1 + 114 * p.2.2) / 1000

/-- PIL `image.convert('L')`: per-pixel luminosity. -/
def convertL (img : RGBImage) : GrayImage := img.map (List.map lum)

/-- The whole image preprocessing the OCR strategy applies before
`pytesseract` (bot.py line 183): `image = image.convert('L')` and nothing
else. -/
def preprocessImage (img : RGBImage) : GrayImage := convertL img

/-- The fixed-threshold binarization step the SPEC describes (pixels above
the threshold map to white, else black).  It appears nowhere in bot.py; it is
defined here only to compare the code's preprocessing against the spec's. -/
def specBinarize (thr : Nat) (img : GrayImage) : GrayImage :=
  img.map (List.map fun v => if thr < v then 255 else 0)

/-- A one-pixel mid-gray image. -/
def imgGray : RGBImage := [[(100, 100, 100)]]

theorem pySplitAux_cons_nonws (c : Char) (l acc : Str) (h : pyWs c = false) :
    pySplitAux (c :: l) acc = pySplitAux l (c :: acc) := by
  simp [pySplitAux, h]

theorem pySplitAux_cons_ws (c : Char) (l acc : Str) (h : pyWs c = true) :
    pySplitAux (c :: l) acc =
      if acc = [] then pySplitAux l [] else acc.reverse :: pySplitAux l [] := by
  simp [pySplitAux, h]

theorem pySplitAux_nil (acc : Str) :
    pySplitAux [] acc = if acc = [] then [] else [acc.reverse] := by
  simp [pySplitAux]

theorem pySplitAux_goodTokens : ∀ (l acc : Str), (∀ c ∈ acc, pyWs c = false) →
    ∀ t ∈ pySplitAux l acc, goodToken t := by
  intro l
  induction l with
  | nil =>
    intro acc hacc t ht
    rw [pySplitAux_nil] at ht
    by_cases h : acc = []
    · simp [h] at ht
    · simp [h] at ht
      subst ht
      exact ⟨by simpa using h, by simpa using hacc⟩
  | cons c cs ih =>
    intro acc hacc t ht
    by_cases hw : pyWs c
    · rw [pySplitAux_cons_ws c cs acc hw] at ht
      by_cases h : acc = []
      · simp [h] at ht
        exact ih [] (by simp) t ht
      · simp [h] at ht
        rcases ht with ht | ht
        · subst ht
          exact ⟨by simpa using h, by simpa using hacc⟩
        · exact ih [] (by simp) t ht
    · rw [pySplitAux_cons_nonws c cs acc (by simpa using hw)] at ht
      refine ih (c :: acc) ?_ t ht
      intro x hx
      rcases List.mem_cons.mp hx with hx | hx
      · subst hx; simpa using hw
      · exact hacc x hx

theorem pySplitAux_append : ∀ (t rest acc : Str), (∀ c ∈ t, pyWs c = false) →
    pySplitAux (t ++ rest) acc = pySplitAux rest (t.reverse ++ acc) := by
  intro t
  induction t with
  | nil => intro rest acc _; simp
  | cons c t2 ih =>
    intro rest acc h
    have hc : pyWs c = false := h c (by simp)
    rw [List.cons_append, pySplitAux_cons_nonws c (t2 ++ rest) acc hc,
      ih rest (c :: acc) (fun x hx => h x (by simp [hx]))]
    congr 1
    simp

theorem pySplit_joinSpace : ∀ ts : List Str, ts ≠ [] → (∀ t ∈ ts, goodToken t) →
    pySplit (joinSpace ts) = ts := by
  intro ts
  induction ts with
  | nil => intro h; exact absurd rfl h
  | cons t ts2 ih =>
    intro _ hgood
    obtain ⟨htne, htws⟩ := hgood t (by simp)
    cases ts2 with
    | nil =>
      show pySplit (joinSep ' ' [t]) = [t]
      unfold joinSep pySplit
      have h2 := pySplitAux_append t [] [] htws
      simp at h2
      rw [h2, pySplitAux_nil]
      simp [htne]
    | cons t2 ts3 =>
      show pySplit (joinSep ' ' (t :: t2 :: ts3)) = _
      unfold joinSep pySplit
      rw [pySplitAux_append t (' ' :: joinSep ' ' (t2 :: ts3)) [] htws,
        pySplitAux_cons_ws _ _ _ (by decide)]
      simp [htne]
      exact ih (by simp) (fun x hx => hgood x (by simp [hx]))


theorem joinSep_ne_nil (sep : Char) : ∀ ts : List Str, ts ≠ [] →
    (∀ t ∈ ts, t ≠ []) → joinSep sep ts ≠ [] := by
  intro ts
  cases ts with
  | nil => intro h; exact absurd rfl h
  | cons t ts2 =>
    intro _ hne
    cases ts2 with
    | nil => exact hne t (by simp)
    | cons t2 ts3 =>
      show t ++ sep :: joinSep sep (t2 :: ts3) ≠ []
      simp

theorem joinSep_head (sep : Char) : ∀ (t : Str) (ts : List Str), t ≠ [] →
    (joinSep sep (t :: ts)).head? = t.head? := by
  intro t ts htne
  cases ts with
  | nil => rfl
  | cons t2 ts3 =>
    show (t ++ sep :: joinSep sep (t2 :: ts3)).head? = t.head?
    cases t with
    | nil => exact absurd rfl htne
    | cons c l => simp

theorem appendGetLast (l1 l2 : Str) (h : l2 ≠ []) :
    (l1 ++ l2).getLast? = l2.getLast? := by
  induction l1 with
  | nil => simp
  | cons a l ih =>
    have hne : l ++ l2 ≠ [] := by simp [h]
    rw [List.cons_append]
    cases hl : l ++ l2 with
    | nil => exact absurd hl hne
    | cons b m => rw [List.getLast?_cons_cons, ← hl, ih]

theorem joinSep_getLast_mem (sep : Char) : ∀ ts : List Str, (∀ t ∈ ts, t ≠ []) →
    ∀ c : Char, (joinSep sep ts).getLast? = some c → ∃ t ∈ ts, t.getLast? = some c := by
  intro ts
  induction ts with
  | nil => intro _ c h; simp [joinSep] at h
  | cons t ts2 ih =>
    intro hne c h
    cases ts2 with
    | nil =>
      refine ⟨t, by simp, ?_⟩
      simpa [joinSep] using h
    | cons t2 ts3 =>
      have : joinSep sep (t :: t2 :: ts3) = t ++ sep :: joinSep sep (t2 :: ts3) := rfl
      rw [this, appendGetLast _ _ (by simp)] at h
      have hj : joinSep sep (t2 :: ts3) ≠ [] :=
        joinSep_ne_nil sep _ (by simp) (fun x hx => hne x (by simp [hx]))
      rw [show (sep :: joinSep sep (t2 :: ts3)) = [sep] ++ joinSep sep (t2 :: ts3) from rfl,
        appendGetLast _ _ hj] at h
      obtain ⟨t0, ht0, hlast⟩ := ih (fun x hx => hne x (by simp [hx])) c h
      exact ⟨t0, by simp [ht0], hlast⟩

theorem mem_joinSep (sep : Char) : ∀ (ts : List Str) (c : Char),
    c ∈ joinSep sep ts → c = sep ∨ ∃ t ∈ ts, c ∈ t := by
  intro ts
  induction ts with
  | nil => intro c h; simp [joinSep] at h
  | cons t ts2 ih =>
    intro c h
    cases ts2 with
    | nil =>
      right
      exact ⟨t, by simp, by simpa [joinSep] using h⟩
    | cons t2 ts3 =>
      have : joinSep sep (t :: t2 :: ts3) = t ++ sep :: joinSep sep (t2 :: ts3) := rfl
      rw [this] at h
      rcases List.mem_append.mp h with h | h
      · exact Or.inr ⟨t, by simp, h⟩
      · rcases List.mem_cons.mp h with h | h
        · exact Or.inl h
        · rcases ih c h with h | ⟨t0, ht0, hc⟩
          · exact Or.inl h
          · exact Or.inr ⟨t0, by simp [ht0], hc⟩

theorem noWsRun_cons_nonws (a : Char) (l : Str) (h : pyWs a = false) :
    noWsRun (a :: l) = noWsRun l := by
  cases l with
  | nil => simp [noWsRun]
  | cons b m => simp [noWsRun, h]

theorem noWsRun_append_nonws : ∀ (t rest : Str), (∀ c ∈ t, pyWs c = false) →
    noWsRun (t ++ rest) = noWsRun rest := by
  intro t
  induction t with
  | nil => intro rest _; simp
  | cons c t2 ih =>
    intro rest h
    rw [List.cons_append, noWsRun_cons_nonws c _ (h c (by simp)),
      ih rest (fun x hx => h x (by simp [hx]))]

theorem noWsRun_joinSpace : ∀ ts : List Str, (∀ t ∈ ts, goodToken t) →
    noWsRun (joinSpace ts) = true := by
  intro ts
  induction ts with
  | nil => intro _; rfl
  | cons t ts2 ih =>
    intro hgood
    obtain ⟨htne, htws⟩ := hgood t (by simp)
    cases ts2 with
    | nil =>
      show noWsRun (joinSep ' ' [t]) = true
      unfold joinSep
      rw [show t = t ++ [] by simp, noWsRun_append_nonws t [] htws]
      rfl
    | cons t2 ts3 =>
      show noWsRun (t ++ ' ' :: joinSep ' ' (t2 :: ts3)) = true
      rw [noWsRun_append_nonws t _ htws]
      obtain ⟨ht2ne, ht2ws⟩ := hgood t2 (by simp)
      obtain ⟨c, l2, hc⟩ : ∃ c l2, t2 = c :: l2 := by
        cases t2 with
        | nil => exact absurd rfl ht2ne
        | cons c l2 => exact ⟨c, l2, rfl⟩
      have hhead : (joinSep ' ' (t2 :: ts3)).head? = some c := by
        rw [joinSep_head ' ' t2 ts3 ht2ne, hc]; rfl
      obtain ⟨j2, hj2⟩ : ∃ j2, joinSep ' ' (t2 :: ts3) = c :: j2 := by
        cases hj : joinSep ' ' (t2 :: ts3) with
        | nil => rw [hj] at hhead; simp at hhead
        | cons x m =>
          rw [hj] at hhead
          simp at hhead
          exact ⟨m, by rw [hhead]⟩
      rw [hj2]
      have hcws : pyWs c = false := ht2ws c (by simp [hc])
      show noWsRun (' ' :: c :: j2) = true
      have hstep : noWsRun (' ' :: c :: j2) = noWsRun (c :: j2) := by
        simp [noWsRun, hcws]
      rw [hstep, ← hj2]
      exact ih (fun x hx => hgood x (by simp [hx]))

theorem spacesOnly_joinSpace : ∀ ts : List Str, (∀ t ∈ ts, goodToken t) →
    spacesOnly (joinSpace ts) = true := by
  intro ts hgood
  rw [spacesOnly, List.all_eq_true]
  intro c hc
  rcases mem_joinSep ' ' ts c hc with h | ⟨t, ht, hct⟩
  · subst h; rfl
  · simp [(hgood t ht).2 c hct]

theorem normalizedLine_joinSpace : ∀ ts : List Str, ts ≠ [] →
    (∀ t ∈ ts, goodToken t) → normalizedLine (joinSpace ts) = true := by
  intro ts hne hgood
  have hne2 : ∀ t ∈ ts, t ≠ [] := fun t ht => (hgood t ht).1
  obtain ⟨t, ts2, rfl⟩ : ∃ t ts2, ts = t :: ts2 := by
    cases ts with
    | nil => exact absurd rfl hne
    | cons t ts2 => exact ⟨t, ts2, rfl⟩
  obtain ⟨htne, htws⟩ := hgood t (by simp)
  obtain ⟨c, l2, rfl⟩ : ∃ c l2, t = c :: l2 := by
    cases t with
    | nil => exact absurd rfl htne
    | cons c l2 => exact ⟨c, l2, rfl⟩
  rw [normalizedLine]
  have h1 : (joinSpace ((c :: l2) :: ts2)).isEmpty = false := by
    cases hj : joinSpace ((c :: l2) :: ts2) with
    | nil => exact absurd hj (joinSep_ne_nil ' ' _ (by simp) hne2)
    | cons x m => rfl
  have h2 : headOk (joinSpace ((c :: l2) :: ts2)) = true := by
    rw [headOk]
    rw [show (joinSpace ((c :: l2) :: ts2)).head? = (c :: l2).head? from
      joinSep_head ' ' _ ts2 htne]
    simp [htws c (by simp)]
  have h3 : lastOk (joinSpace ((c :: l2) :: ts2)) = true := by
    rw [lastOk]
    cases hl : (joinSpace ((c :: l2) :: ts2)).getLast? with
    | none => rfl
    | some x =>
      obtain ⟨t0, ht0, hlast⟩ := joinSep_getLast_mem ' ' _ hne2 x hl
      have : x ∈ t0 := by
        cases t0 with
        | nil => simp at hlast
        | cons y m =>
          have := List.getLast?_eq_getLast (y :: m) (by simp)
          rw [this] at hlast
          simp at hlast
          rw [← hlast]
          exact List.getLast_mem _
      simp [(hgood t0 ht0).2 x this]
  rw [h1, h2, h3, noWsRun_joinSpace _ hgood, spacesOnly_joinSpace _ hgood]
  rfl


theorem dropWhile_eq_self_of_headOk : ∀ l : Str, headOk l = true →
    l.dropWhile pyWs = l := by
  intro l h
  cases l with
  | nil => rfl
  | cons c m =>
    have : pyWs c = false := by
      rw [headOk] at h
      simpa using h
    simp [List.dropWhile_cons, this]

theorem pyStrip_eq_self (l : Str) (h1 : headOk l = true) (h2 : lastOk l = true) :
    pyStrip l = l := by
  rw [pyStrip, dropWhile_eq_self_of_headOk l h1]
  have hrev : headOk l.reverse = true := by
    rw [headOk, List.head?_reverse]
    rw [lastOk] at h2
    exact h2
  rw [dropWhile_eq_self_of_headOk l.reverse hrev, List.reverse_reverse]

theorem normalizedLine_parts (l : Str) (h : normalizedLine l = true) :
    l ≠ [] ∧ headOk l = true ∧ lastOk l = true ∧ noWsRun l = true ∧
      spacesOnly l = true := by
  rw [normalizedLine] at h
  simp only [Bool.and_eq_true, Bool.not_eq_true'] at h
  exact ⟨by simpa [List.isEmpty_iff] using h.1.1.1.1, h.1.1.1.2, h.1.1.2, h.1.2, h.2⟩

theorem pyStrip_normalizedLine (l : Str) (h : normalizedLine l = true) :
    pyStrip l = l := by
  obtain ⟨_, h1, h2, _, _⟩ := normalizedLine_parts l h
  exact pyStrip_eq_self l h1 h2

theorem line_gate : ∀ line : Str,
    (pyStrip (joinSpace (pySplit line)) ≠ [] ↔ pySplit line ≠ []) ∧
    (pySplit line ≠ [] → normalizedLine (joinSpace (pySplit line)) = true) := by
  intro line
  have hgood : ∀ t ∈ pySplit line, goodToken t :=
    pySplitAux_goodTokens line [] (by simp)
  by_cases h : pySplit line = []
  · rw [h]
    exact ⟨by simp [joinSpace, joinSep, pyStrip], fun hc => absurd rfl hc⟩
  · have hnorm := normalizedLine_joinSpace (pySplit line) h hgood
    have hstrip := pyStrip_normalizedLine _ hnorm
    have hne : joinSpace (pySplit line) ≠ [] :=
      joinSep_ne_nil ' ' _ h (fun t ht => (hgood t ht).1)
    constructor
    · rw [hstrip]
      exact ⟨fun _ => h, fun _ => hne⟩
    · exact fun _ => hnorm

theorem mem_cleaned_lines : ∀ (t : Str) (l : Str), l ∈ cleaned_lines t →
    ∃ line ∈ splitNl t, pySplit line ≠ [] ∧ l = joinSpace (pySplit line) := by
  intro t l hl
  rw [cleaned_lines, List.mem_filterMap] at hl
  obtain ⟨line, hline, hcond⟩ := hl
  by_cases h : pyStrip (joinSpace (pySplit line)) ≠ []
  · rw [if_pos h] at hcond
    exact ⟨line, hline, (line_gate line).1.mp h, (Option.some_injective _ hcond).symm⟩
  · rw [if_neg h] at hcond
    exact absurd hcond (by simp)

theorem normalized_cleaned : ∀ (t : Str) (l : Str), l ∈ cleaned_lines t →
    normalizedLine l = true := by
  intro t l hl
  obtain ⟨line, _, hne, rfl⟩ := mem_cleaned_lines t l hl
  exact (line_gate line).2 hne

theorem clean_some : ∀ t : Str, clean_extracted_text (some t) = joinNl (cleaned_lines t) := by
  intro t
  by_cases h : t = []
  · subst h
    have : cleaned_lines [] = [] := by decide
    rw [this]
    rfl
  · simp [clean_extracted_text, h]

theorem pyStrip_clean : ∀ x : Option Str,
    pyStrip (clean_extracted_text x) = clean_extracted_text x := by
  intro x
  cases x with
  | none => rfl
  | some t =>
    rw [clean_some]
    cases hL : cleaned_lines t with
    | nil => rfl
    | cons l L2 =>
      have hmem : ∀ l2 ∈ l :: L2, normalizedLine l2 = true := by
        rw [← hL]
        exact fun l2 hl2 => normalized_cleaned t l2 hl2
      have hne2 : ∀ l2 ∈ l :: L2, l2 ≠ [] :=
        fun l2 hl2 => (normalizedLine_parts l2 (hmem l2 hl2)).1
      refine pyStrip_eq_self _ ?_ ?_
      · rw [headOk, joinNl, joinSep_head '\n' l L2 (hne2 l (by simp))]
        obtain ⟨hlne, hhd, _, _, _⟩ := normalizedLine_parts l (hmem l (by simp))
        rw [headOk] at hhd
        cases l with
        | nil => exact absurd rfl hlne
        | cons c m => simpa using hhd
      · rw [lastOk]
        cases hlast : (joinNl (l :: L2)).getLast? with
        | none => rfl
        | some c =>
          obtain ⟨t0, ht0, hc⟩ := joinSep_getLast_mem '\n' (l :: L2) hne2 c hlast
          obtain ⟨_, _, hlst, _, _⟩ := normalizedLine_parts t0 (hmem t0 ht0)
          rw [lastOk, hc] at hlst
          exact hlst


theorem splitNlAux_cons_nl (cs : Str) (acc : Str) :
    splitNlAux ('\n' :: cs) acc = acc.reverse :: splitNlAux cs [] := by
  simp [splitNlAux]

theorem splitNlAux_cons_other (c : Char) (cs : Str) (acc : Str) (h : c ≠ '\n') :
    splitNlAux (c :: cs) acc = splitNlAux cs (c :: acc) := by
  simp [splitNlAux, h]

theorem splitNlAux_append : ∀ (l rest acc : Str), (∀ c ∈ l, c ≠ '\n') →
    splitNlAux (l ++ rest) acc = splitNlAux rest (l.reverse ++ acc) := by
  intro l
  induction l with
  | nil => intro rest acc _; simp
  | cons c l2 ih =>
    intro rest acc h
    rw [List.cons_append, splitNlAux_cons_other c _ acc (h c (by simp)),
      ih rest (c :: acc) (fun x hx => h x (by simp [hx]))]
    congr 1
    simp

theorem splitNl_joinNl : ∀ L : List Str, L ≠ [] → (∀ l ∈ L, ∀ c ∈ l, c ≠ '\n') →
    splitNl (joinNl L) = L := by
  intro L
  induction L with
  | nil => intro h; exact absurd rfl h
  | cons l L2 ih =>
    intro _ hnl
    cases L2 with
    | nil =>
      show splitNl (joinSep '\n' [l]) = [l]
      unfold joinSep splitNl
      have h2 := splitNlAux_append l [] [] (hnl l (by simp))
      simp at h2
      rw [h2]
      simp [splitNlAux]
    | cons l2 L3 =>
      show splitNl (joinSep '\n' (l :: l2 :: L3)) = _
      unfold joinSep splitNl
      rw [splitNlAux_append l ('\n' :: joinSep '\n' (l2 :: L3)) [] (hnl l (by simp)),
        splitNlAux_cons_nl]
      simp
      exact ih (by simp) (fun x hx => hnl x (by simp [hx]))

theorem filterMapSelf {α : Type} (f : α → Option α) :
    ∀ L : List α, (∀ x ∈ L, f x = some x) → L.filterMap f = L := by
  intro L
  induction L with
  | nil => intro _; rfl
  | cons x L2 ih =>
    intro h
    rw [List.filterMap_cons, h x (by simp), ih (fun y hy => h y (by simp [hy]))]

theorem no_nl_of_normalized (l : Str) (h : normalizedLine l = true) :
    ∀ c ∈ l, c ≠ '\n' := by
  intro c hc heq
  obtain ⟨_, _, _, _, hsp⟩ := normalizedLine_parts l h
  rw [spacesOnly, List.all_eq_true] at hsp
  have := hsp c hc
  subst heq
  simp [pyWs] at this

theorem cleaned_fixed_point : ∀ l line : Str, pySplit line ≠ [] →
    l = joinSpace (pySplit line) →
    pySplit l = pySplit line ∧ joinSpace (pySplit l) = l := by
  intro l line hne hl
  have hgood : ∀ t ∈ pySplit line, goodToken t :=
    pySplitAux_goodTokens line [] (by simp)
  have hre : pySplit (joinSpace (pySplit line)) = pySplit line :=
    pySplit_joinSpace (pySplit line) hne hgood
  subst hl
  exact ⟨hre, by rw [hre]⟩

theorem cleaned_lines_clean : ∀ t : Str,
    cleaned_lines (clean_extracted_text (some t)) = cleaned_lines t := by
  intro t
  rw [clean_some]
  cases hL : cleaned_lines t with
  | nil => decide
  | cons l L2 =>
    have hmem : ∀ l2 ∈ l :: L2, l2 ∈ cleaned_lines t := by rw [hL]; exact fun _ h => h
    have hnorm : ∀ l2 ∈ l :: L2, normalizedLine l2 = true :=
      fun l2 h2 => normalized_cleaned t l2 (hmem l2 h2)
    have hnl : ∀ l2 ∈ l :: L2, ∀ c ∈ l2, c ≠ '\n' :=
      fun l2 h2 => no_nl_of_normalized l2 (hnorm l2 h2)
    rw [cleaned_lines, splitNl_joinNl (l :: L2) (by simp) hnl]
    refine filterMapSelf _ (l :: L2) ?_
    intro x hx
    obtain ⟨line, _, hne, hx2⟩ := mem_cleaned_lines t x (hmem x hx)
    obtain ⟨hre, hfix⟩ := cleaned_fixed_point x line hne hx2
    have hgate : pyStrip (joinSpace (pySplit x)) ≠ [] := by
      rw [hfix, pyStrip_normalizedLine x (hnorm x hx)]
      exact (normalizedLine_parts x (hnorm x hx)).1
    show (if pyStrip (joinSpace (pySplit x)) ≠ [] then some (joinSpace (pySplit x))
      else none) = some x
    rw [if_pos hgate, hfix]


theorem isEmpty_false_of_ne_nil (l : Str) (h : l ≠ []) : l.isEmpty = false := by
  cases l with
  | nil => exact absurd rfl h
  | cons c m => rfl

theorem ne_nil_of_isEmpty_false (l : Str) (h : l.isEmpty = false) : l ≠ [] := by
  cases l with
  | nil => simp at h
  | cons c m => simp

theorem acceptGate_clean (x : Option Str) (thr : Nat) :
    acceptGate (some (clean_extracted_text x)) thr = true ↔
      thr < (clean_extracted_text x).length := by
  have h := pyStrip_clean x
  simp only [acceptGate, h, Bool.and_eq_true, Bool.not_eq_true', decide_eq_true_eq]
  constructor
  · exact fun h2 => h2.2
  · intro h2
    refine ⟨isEmpty_false_of_ne_nil _ ?_, h2⟩
    intro he
    rw [he] at h2
    simp at h2

theorem acceptGate_some_true (t : Option Str) (thr : Nat) (h : acceptGate t thr = true) :
    ∃ s, t = some s ∧ s ≠ [] ∧ thr < (pyStrip s).length := by
  cases t with
  | none => simp [acceptGate] at h
  | some s =>
    simp only [acceptGate, Bool.and_eq_true, Bool.not_eq_true', decide_eq_true_eq] at h
    exact ⟨s, rfl, ne_nil_of_isEmpty_false s h.1, h.2⟩

theorem plumber_strip : ∀ (d : PDFDoc) (s : Str),
    extract_text_with_pdfplumber d = some s → pyStrip s = s ∧ s ≠ [] := by
  intro d s h
  unfold extract_text_with_pdfplumber at h
  by_cases ho : d.openFails = true
  · simp [ho] at h
  · simp only [ho, Bool.false_eq_true, if_false] at h
    cases hpl : plumberLoop 0 d.pages with
    | none => rw [hpl] at h; simp at h
    | some raw =>
      rw [hpl] at h
      dsimp only at h
      by_cases hc : pyStrip (clean_extracted_text (some raw)) ≠ []
      · rw [if_pos hc] at h
        have hs := (Option.some_injective _ h).symm
        subst hs
        rw [pyStrip_clean (some raw)] at hc
        exact ⟨pyStrip_clean _, hc⟩
      · rw [if_neg hc] at h
        simp at h

theorem ocr_strip : ∀ (d : PDFDoc) (s : Str),
    extract_text_with_ocr d = some s → pyStrip s = s ∧ s ≠ [] := by
  intro d s h
  unfold extract_text_with_ocr at h
  by_cases ho : d.ocrConvertFails = true
  · simp [ho] at h
  · simp only [ho, Bool.false_eq_true, if_false] at h
    cases hpl : ocrLoop 0 (d.ocrPages.take 5) with
    | none => rw [hpl] at h; simp at h
    | some raw =>
      rw [hpl] at h
      dsimp only at h
      by_cases hc : pyStrip (clean_extracted_text (some raw)) ≠ []
      · rw [if_pos hc] at h
        have hs := (Option.some_injective _ h).symm
        subst hs
        rw [pyStrip_clean (some raw)] at hc
        exact ⟨pyStrip_clean _, hc⟩
      · rw [if_neg hc] at h
        simp at h


theorem ocrLoop_none : ∀ (i : Nat) (ps : List (Option Str)), none ∈ ps →
    ocrLoop i ps = none := by
  intro i ps
  induction ps generalizing i with
  | nil => intro h; simp at h
  | cons p rest ih =>
    intro h
    cases p with
    | none => rfl
    | some s =>
      have h2 : none ∈ rest := by simpa using h
      unfold ocrLoop
      by_cases hc : pyStrip s ≠ []
      · rw [if_pos hc, ih (i + 1) h2]
        rfl
      · rw [if_neg hc]
        exact ih (i + 1) h2

/-- C1, counterexample: on a document where the first strategy succeeds, the
method identifier of the result is "pdfplumber", which is none of the
claimed identifiers "layer_a", "layer_b", "layer_c", "ocr": the cascade has
no three embedded-text layers. -/
theorem cascade_method_not_layer_tags :
    (extract_text_from_pdf docA).map ExtractionOk.method = some "pdfplumber".data ∧
    "pdfplumber".data ∉
      (["layer_a".data, "layer_b".data, "layer_c".data, "ocr".data] : List Str) := by
  decide

/-- C1, amended: the cascade attempts at most the two strategies pdfplumber
then OCR, in that fixed order; OCR is attempted only when pdfplumber failed
or stayed below its threshold; when pdfplumber's gate accepts, the cascade
halts with the pdfplumber result and OCR is never attempted; and the method
identifier of any successful result is "pdfplumber" or "ocr". -/
theorem cascade_order_and_methods : ∀ d : PDFDoc,
    (attemptedMethods d = [] ∨ attemptedMethods d = ["pdfplumber".data] ∨
      attemptedMethods d = ["pdfplumber".data, "ocr".data]) ∧
    (attemptedMethods d = ["pdfplumber".data, "ocr".data] →
      acceptGate (extract_text_with_pdfplumber d) 100 = false) ∧
    (validate_pdf d = true → acceptGate (extract_text_with_pdfplumber d) 100 = true →
      attemptedMethods d = ["pdfplumber".data] ∧
      extract_text_from_pdf d =
        some ⟨(extract_text_with_pdfplumber d).getD [], "pdfplumber".data⟩) ∧
    (∀ r : ExtractionOk, extract_text_from_pdf d = some r →
      r.method = "pdfplumber".data ∨ r.method = "ocr".data) := by
  intro d
  by_cases hv : validate_pdf d = true
  · by_cases h1 : acceptGate (extract_text_with_pdfplumber d) 100 = true
    · refine ⟨Or.inr (Or.inl ?_), ?_, fun _ _ => ⟨?_, ?_⟩, ?_⟩
      · simp [attemptedMethods, hv, h1]
      · intro hx
        rw [attemptedMethods, if_pos hv, if_pos h1] at hx
        simp at hx
      · simp [attemptedMethods, hv, h1]
      · simp [extract_text_from_pdf, hv, h1]
      · intro r hr
        rw [extract_text_from_pdf, if_pos hv] at hr
        rw [if_pos h1] at hr
        have := (Option.some_injective _ hr).symm
        subst this
        exact Or.inl rfl
    · by_cases h2 : acceptGate (extract_text_with_ocr d) 50 = true
      · refine ⟨Or.inr (Or.inr ?_), fun _ => ?_, fun _ hc => absurd hc h1, ?_⟩
        · simp [attemptedMethods, hv, h1]
        · simpa using h1
        · intro r hr
          rw [extract_text_from_pdf, if_pos hv] at hr
          rw [if_neg h1, if_pos h2] at hr
          have := (Option.some_injective _ hr).symm
          subst this
          exact Or.inr rfl
      · refine ⟨Or.inr (Or.inr ?_), fun _ => ?_, fun _ hc => absurd hc h1, ?_⟩
        · simp [attemptedMethods, hv, h1]
        · simpa using h1
        · intro r hr
          rw [extract_text_from_pdf, if_pos hv] at hr
          rw [if_neg h1, if_neg h2] at hr
          simp at hr
  · refine ⟨Or.inl ?_, ?_, fun hc _ => absurd hc hv, ?_⟩
    · simp [attemptedMethods, hv]
    · intro hx
      rw [attemptedMethods, if_neg hv] at hx
      simp at hx
    · intro r hr
      rw [extract_text_from_pdf, if_neg hv] at hr
      simp at hr


/-- C2: the quality gate accepts a structured strategy's normalized output
exactly when its length strictly exceeds 100 characters and an OCR
strategy's normalized output exactly when its length strictly exceeds 50; in
particular 100 normalized characters are rejected and 101 accepted, and 50
are rejected and 51 accepted. -/
theorem quality_gate_thresholds : ∀ x : Option Str,
    (acceptGate (some (clean_extracted_text x)) 100 = true ↔
      100 < (clean_extracted_text x).length) ∧
    (acceptGate (some (clean_extracted_text x)) 50 = true ↔
      50 < (clean_extracted_text x).length) ∧
    acceptGate (some (clean_extracted_text (some (List.replicate 100 'a')))) 100 = false ∧
    acceptGate (some (clean_extracted_text (some (List.replicate 101 'a')))) 100 = true ∧
    acceptGate (some (clean_extracted_text (some (List.replicate 50 'b')))) 50 = false ∧
    acceptGate (some (clean_extracted_text (some (List.replicate 51 'b')))) 50 = true :=
  fun x => ⟨acceptGate_clean x 100, acceptGate_clean x 50,
    by decide, by decide, by decide, by decide⟩

/-- C3, counterexample: on a document where both strategies fail or stay
below threshold, `extract_text_from_pdf` returns `none` (Python `None`) -
there is no structured result carrying a success flag or an
`all_methods_failed` reason tag. -/
theorem all_failed_no_structured_result :
    acceptGate (extract_text_with_pdfplumber docFail) 100 = false ∧
    acceptGate (extract_text_with_ocr docFail) 50 = false ∧
    extract_text_from_pdf docFail = none := by
  decide

/-- C3, amended: when every strategy fails or stays below its threshold,
`extract_text_from_pdf` returns `None`; strategy faults are swallowed inside
the strategies (modelled by their `Option` results), so no exception escapes
the call. -/
theorem all_failed_returns_none : ∀ d : PDFDoc, validate_pdf d = true →
    acceptGate (extract_text_with_pdfplumber d) 100 = false →
    acceptGate (extract_text_with_ocr d) 50 = false →
    extract_text_from_pdf d = none := by
  intro d hv h1 h2
  rw [extract_text_from_pdf, if_pos hv]
  rw [if_neg (by simp [h1]), if_neg (by simp [h2])]

/-- C3, witness: the amended theorem applied to the concrete document
`docFail`. -/
theorem all_failed_returns_none_concrete : extract_text_from_pdf docFail = none :=
  all_failed_returns_none docFail (by decide) (by decide) (by decide)

/-- C4: any successful result of `extract_text_from_pdf` carries nonempty
text whose length strictly exceeds the quality threshold of the strategy
that produced it (100 for pdfplumber, 50 for OCR); a failed extraction is
`none` and carries no text at all. -/
theorem success_result_invariant : ∀ (d : PDFDoc) (r : ExtractionOk),
    extract_text_from_pdf d = some r →
    r.text ≠ [] ∧ ((r.method = "pdfplumber".data ∧ 100 < r.text.length) ∨
      (r.method = "ocr".data ∧ 50 < r.text.length)) := by
  intro d r h
  rw [extract_text_from_pdf] at h
  by_cases hv : validate_pdf d = true
  · rw [if_pos hv] at h
    by_cases h1 : acceptGate (extract_text_with_pdfplumber d) 100 = true
    · rw [if_pos h1] at h
      obtain ⟨s, hs, hne, hlen⟩ := acceptGate_some_true _ _ h1
      obtain ⟨hstrip, _⟩ := plumber_strip d s hs
      rw [hs] at h
      simp only [Option.getD_some] at h
      have hr := (Option.some_injective _ h).symm
      subst hr
      rw [hstrip] at hlen
      exact ⟨hne, Or.inl ⟨rfl, hlen⟩⟩
    · rw [if_neg h1] at h
      by_cases h2 : acceptGate (extract_text_with_ocr d) 50 = true
      · rw [if_pos h2] at h
        obtain ⟨s, hs, hne, hlen⟩ := acceptGate_some_true _ _ h2
        obtain ⟨hstrip, _⟩ := ocr_strip d s hs
        rw [hs] at h
        simp only [Option.getD_some] at h
        have hr := (Option.some_injective _ h).symm
        subst hr
        rw [hstrip] at hlen
        exact ⟨hne, Or.inr ⟨rfl, hlen⟩⟩
      · rw [if_neg h2] at h
        simp at h
  · rw [if_neg hv] at h
    simp at h

/-- C4, witness: the invariant instantiated on the concrete document `docA`,
whose extraction succeeds with the pdfplumber method. -/
theorem success_result_invariant_concrete :
    resA.text ≠ [] ∧ ((resA.method = "pdfplumber".data ∧ 100 < resA.text.length) ∨
      (resA.method = "ocr".data ∧ 50 < resA.text.length)) :=
  success_result_invariant docA resA (by decide)

/-- C5, counterexample: on a 12-page document whose every page yields OCR
text, the OCR strategy's output contains exactly 5 page-boundary markers,
not the claimed 10: the code caps at `last_page=5`. -/
theorem ocr_twelve_page_five_markers :
    doc12.ocrPages.length = 12 ∧
    (extract_text_with_ocr doc12).map countMarkers = some 5 ∧
    (extract_text_with_ocr doc12).map countMarkers ≠ some 10 := by
  decide

/-- C5, amended: the OCR strategy processes at most the first 5 pages of the
document (pages beyond the fifth never affect its result), and for the
12-page document `doc12` the returned text contains exactly the 5
page-boundary markers `--- Page N (OCR) ---` for N = 1..5. -/
theorem ocr_page_cap_five :
    (∀ d : PDFDoc, extract_text_with_ocr {d with ocrPages := d.ocrPages.take 5} =
      extract_text_with_ocr d) ∧
    (splitNl ((extract_text_with_ocr doc12).getD [])).filter markerLine =
      [ocrMarker 1, ocrMarker 2, ocrMarker 3, ocrMarker 4, ocrMarker 5] := by
  constructor
  · intro d
    show (if d.ocrConvertFails then none else _) = _
    rw [extract_text_with_ocr]
    simp only [List.take_take, Nat.min_self]
  · decide

/-- C6: the text normalizer is idempotent - cleaning an already-cleaned text
is a no-op. -/
theorem clean_idempotent : ∀ x : Option Str,
    clean_extracted_text (some (clean_extracted_text x)) = clean_extracted_text x := by
  intro x
  cases x with
  | none => decide
  | some t =>
    rw [clean_some (clean_extracted_text (some t)), cleaned_lines_clean t, clean_some t]

/-- C7: the normalizer's output is the surviving lines rejoined with single
newlines, and every surviving line is nonempty with no leading or trailing
whitespace, no two adjacent whitespace characters, and every internal
whitespace character a single plain space. -/
theorem clean_normalized_lines : ∀ t : Str,
    clean_extracted_text (some t) = joinNl (cleaned_lines t) ∧
    ∀ l ∈ cleaned_lines t, normalizedLine l = true :=
  fun t => ⟨clean_some t, fun l hl => normalized_cleaned t l hl⟩

/-- C8: when the file does not exist or cannot be opened as a PDF,
validation fails, `extract_text_from_pdf` returns an immediate failure
result, and no extraction strategy is attempted. -/
theorem open_failure_no_strategies : ∀ d : PDFDoc, d.openFails = true →
    validate_pdf d = false ∧ extract_text_from_pdf d = none ∧
      attemptedMethods d = [] := by
  intro d h
  have hv : validate_pdf d = false := by rw [validate_pdf, if_pos h]
  have hv2 : ¬validate_pdf d = true := by simp [hv]
  refine ⟨hv, ?_, ?_⟩
  · rw [extract_text_from_pdf, if_neg hv2]
  · rw [attemptedMethods, if_neg hv2]

/-- C8, witness: the theorem applied to a concrete unopenable document. -/
theorem open_failure_no_strategies_concrete :
    validate_pdf ⟨true, [], false, []⟩ = false ∧
    extract_text_from_pdf ⟨true, [], false, []⟩ = none ∧
    attemptedMethods ⟨true, [], false, []⟩ = [] :=
  open_failure_no_strategies ⟨true, [], false, []⟩ rfl

/-- C9, counterexample: the OCR preprocessing outputs a mid-gray pixel value
100, which a pipeline ending in 150-threshold binarization could never emit
(it would map it to 0); and a raise on one page aborts the whole OCR attempt
- page 2's 60 characters are lost - instead of falling back to grayscale for
that page. -/
theorem preprocess_not_binarized_and_page_abort :
    preprocessImage imgGray = [[100]] ∧
    (100 : Nat) ∉ ([0, 255] : List Nat) ∧
    specBinarize 150 (preprocessImage imgGray) = [[0]] ∧
    docPageFail.ocrPages.getD 1 none = some (List.replicate 60 'y') ∧
    extract_text_with_ocr docPageFail = none := by
  decide

/-- C9, amended: the image preprocessing before OCR is grayscale conversion
alone - every output row is the luminosity map of an input row, with no
contrast, sharpness, binarization or median-filter step - and any failure
while processing one of the first five pages makes the whole OCR attempt
return `None` rather than falling back per page. -/
theorem preprocess_grayscale_only :
    (∀ (img : RGBImage) (row : List Nat), row ∈ preprocessImage img →
      ∃ prow ∈ img, row = prow.map lum) ∧
    (∀ d : PDFDoc, none ∈ d.ocrPages.take 5 → extract_text_with_ocr d = none) := by
  constructor
  · intro img row hrow
    rw [preprocessImage, convertL, List.mem_map] at hrow
    obtain ⟨prow, hp, hrow⟩ := hrow
    exact ⟨prow, hp, hrow.symm⟩
  · intro d h
    rw [extract_text_with_ocr]
    by_cases hc : d.ocrConvertFails = true
    · rw [if_pos hc]
    · rw [if_neg hc, ocrLoop_none 0 _ h]

/-- C10: on absent (`None`) and on empty input the normalizer returns the
empty string; it is a total function over optional text. -/
theorem clean_total_on_empty :
    clean_extracted_text none = [] ∧ clean_extracted_text (some []) = [] :=
  ⟨rfl, by decide⟩

end DispatchBot
